import Mathlib

/-!
Verification of the event transcoding layer (src/lib/vector-core/src/event/proto.rs):
the codec between the canonical in-memory event model and the binary wire schema.

The wire schema types are generated from a protobuf definition that is summarised in
the design document's external-interface table; the canonical event model lives in
vector-core outside the codec file.  Both are plain data definitions and are modelled
here from the spec, while every codec function is translated directly from
src/lib/vector-core/src/event/proto.rs.

Machine floats (f64) are never inspected or combined by the codec, only moved, so they
are modelled as opaque 64-bit payloads with decidable equality.  BTreeMap / BTreeSet
are modelled as association lists / string lists kept in strictly ascending key order,
with insertion and collection defined explicitly so that iteration order, duplicate
overwriting and re-sorting behave exactly as in the Rust standard library.
-/

/-- Opaque payload of a Rust f64: the codec only moves floats, never computes with
them, so the 64-bit pattern is carried as an uninterpreted value. -/
structure F64 where
  bits : Nat
deriving DecidableEq, Repr

namespace prost_types

/-- Model of prost_types::Timestamp: seconds as i64, subsecond nanoseconds as i32. -/
structure Timestamp where
  seconds : Int
  nanos : Int
deriving DecidableEq, Repr

end prost_types

/-- Rust cast of an integer to u32: the value reduced modulo 2^32, as in
the source's expression casting the i32 nanos field to u32. -/
def asU32 (n : Int) : Nat :=
  (n % (2 ^ 32 : Int)).toNat

/-- Rust cast of a u32-sized natural to i32: the representative of n mod 2^32
in the interval from -2^31 to 2^31 - 1, as in the source's cast of
the subsecond-nanosecond count to i32. -/
def asI32 (n : Nat) : Int :=
  if (n % 2 ^ 32) < 2 ^ 31 then ((n % 2 ^ 32 : Nat) : Int)
  else ((n % 2 ^ 32 : Nat) : Int) - 2 ^ 32

namespace chrono

/-- Model of a chrono DateTime in UTC as used by the codec: a unix-seconds
count plus the subsecond nanosecond count (a u32, as returned by
timestamp_subsec_nanos). -/
structure DateTime where
  seconds : Int
  nanos : Nat
deriving DecidableEq, Repr

/-- Model of chrono Utc.timestamp(seconds, nanos): builds the UTC instant
from unix seconds and a u32 subsecond nanosecond count. -/
def utc_timestamp (seconds : Int) (nanos : Nat) : DateTime :=
  ⟨seconds, nanos⟩

/-- Model of chrono DateTime::timestamp: the unix-seconds count. -/
def DateTime.timestamp (ts : DateTime) : Int := ts.seconds

/-- Model of chrono DateTime::timestamp_subsec_nanos: the subsecond nanosecond
count. -/
def DateTime.timestamp_subsec_nanos (ts : DateTime) : Nat := ts.nanos

end chrono

/-- Rust's Ord on String: lexicographic over the bytes, which coincides with
lexicographic order over the code points. -/
def strLt (a b : String) : Prop := a.data < b.data

instance (a b : String) : Decidable (strLt a b) :=
  inferInstanceAs (Decidable (a.data < b.data))

/-- Model of BTreeMap insert on a strictly-ascending association list: the new
pair is placed at its ordered position, overwriting an equal key. -/
def btreeInsert {α : Type} (k : String) (v : α) : List (String × α) → List (String × α)
  | [] => [(k, v)]
  | (k', v') :: rest =>
    if strLt k k' then (k, v) :: (k', v') :: rest
    else if k = k' then (k, v) :: rest
    else (k', v') :: btreeInsert k v rest

/-- Model of collecting an iterator of pairs into a BTreeMap: pairs are inserted
left to right, so a later duplicate key overwrites an earlier one. -/
def btreeCollect {α : Type} (l : List (String × α)) : List (String × α) :=
  l.foldl (fun acc kv => btreeInsert kv.1 kv.2 acc) []

/-- Model of BTreeSet insert on a strictly-ascending string list: the element is
placed at its ordered position; an already-present element is kept once. -/
def btreeSetInsert (s : String) : List String → List String
  | [] => [s]
  | t :: rest =>
    if strLt s t then s :: t :: rest
    else if s = t then t :: rest
    else t :: btreeSetInsert s rest

/-- Model of collecting an iterator of strings into a BTreeSet: elements are
inserted left to right, eliminating duplicates and losing input order. -/
def btreeSetCollect (l : List String) : List String :=
  l.foldl (fun acc s => btreeSetInsert s acc) []

namespace event

/-- Modelled from the spec: the canonical dynamically-typed Value of the event
model (vector-core's event value type, outside the codec source file).  Map
fields model a BTreeMap with keys in strictly ascending order; Array items are
an ordered sequence. -/
inductive Value where
  | bytes (b : List Nat)
  | timestamp (ts : chrono.DateTime)
  | integer (i : Int)
  | float (f : F64)
  | boolean (b : Bool)
  | map (fields : List (String × Value))
  | array (items : List Value)
  | null

/-- Modelled from the spec: a canonical log event, a mapping from string keys to
values (BTreeMap) plus pipeline-internal metadata that the wire format never
carries, modelled as a unit. -/
structure LogEvent where
  fields : List (String × Value)

/-- Modelled from the spec: statistic kind of a canonical distribution. -/
inductive StatisticKind where
  | histogram
  | summary
deriving DecidableEq, Repr

/-- Modelled from the spec: canonical metric kind. -/
inductive MetricKind where
  | incremental
  | absolute
deriving DecidableEq, Repr

/-- Modelled from the spec: one (value, rate) distribution sample; the rate is a
u32. -/
structure Sample where
  value : F64
  rate : Nat
deriving DecidableEq, Repr

/-- Modelled from the spec: one (upper_limit, count) histogram bucket; the count
is a u32. -/
structure Bucket where
  upper_limit : F64
  count : Nat
deriving DecidableEq, Repr

/-- Modelled from the spec: one (quantile, value) summary quantile. -/
structure Quantile where
  quantile : F64
  value : F64
deriving DecidableEq, Repr

/-- Modelled from the spec: the canonical MetricValue union.  Set values model a
BTreeSet of strings, kept in strictly ascending order. -/
inductive MetricValue where
  | counter (value : F64)
  | gauge (value : F64)
  | set (values : List String)
  | distribution (statistic : StatisticKind) (samples : List Sample)
  | aggregated_histogram (buckets : List Bucket) (count : Nat) (sum : F64)
  | aggregated_summary (quantiles : List Quantile) (count : Nat) (sum : F64)
deriving DecidableEq, Repr

/-- Modelled from the spec: name part of a metric series, with an optional
namespace. -/
structure MetricName where
  name : String
  namespace_ : Option String
deriving DecidableEq, Repr

/-- Modelled from the spec: a metric series, with optional tags (a BTreeMap of
string to string). -/
structure MetricSeries where
  name : MetricName
  tags : Option (List (String × String))
deriving DecidableEq, Repr

/-- Modelled from the spec: metric data, with an optional UTC timestamp. -/
structure MetricData where
  timestamp : Option chrono.DateTime
  kind : MetricKind
  value : MetricValue
deriving DecidableEq, Repr

/-- Modelled from the spec: a canonical metric. -/
structure Metric where
  series : MetricSeries
  data : MetricData
deriving DecidableEq, Repr

/-- Modelled from the spec: Metric::new builds a metric from name, kind and
value with absent namespace, tags and timestamp (vector-core constructor,
outside the codec source file). -/
def Metric.new (name : String) (kind : MetricKind) (value : MetricValue) : Metric :=
  ⟨⟨⟨name, none⟩, none⟩, ⟨none, kind, value⟩⟩

/-- Modelled from the spec: builder setting the optional namespace. -/
def Metric.with_namespace (m : Metric) (ns : Option String) : Metric :=
  { m with series := { m.series with name := { m.series.name with namespace_ := ns } } }

/-- Modelled from the spec: builder setting the optional tags. -/
def Metric.with_tags (m : Metric) (tags : Option (List (String × String))) : Metric :=
  { m with series := { m.series with tags := tags } }

/-- Modelled from the spec: builder setting the optional timestamp. -/
def Metric.with_timestamp (m : Metric) (timestamp : Option chrono.DateTime) : Metric :=
  { m with data := { m.data with timestamp := timestamp } }

/-- Modelled from the spec: the canonical Event union.  Chunk and Frame carry a
byte payload plus pipeline-internal metadata (modelled as a unit, reset to
default on decode and discarded on encode). -/
inductive Event where
  | chunk (bytes : List Nat) (metadata : Unit)
  | frame (bytes : List Nat) (metadata : Unit)
  | log (l : LogEvent)
  | metric (m : Metric)

namespace metric

/-- Modelled from the spec: zip_samples pairs values with sample_rates
element-wise by index, stopping at the length of the shorter sequence
(vector-core's event/metric module, outside the codec source file). -/
def zip_samples (values : List F64) (sample_rates : List Nat) : List Sample :=
  (values.zip sample_rates).map fun p => ⟨p.1, p.2⟩

/-- Modelled from the spec: zip_buckets pairs bucket upper limits with counts
element-wise by index, stopping at the shorter sequence. -/
def zip_buckets (buckets : List F64) (counts : List Nat) : List Bucket :=
  (buckets.zip counts).map fun p => ⟨p.1, p.2⟩

/-- Modelled from the spec: zip_quantiles pairs quantiles with values
element-wise by index, stopping at the shorter sequence. -/
def zip_quantiles (quantiles : List F64) (values : List F64) : List Quantile :=
  (quantiles.zip values).map fun p => ⟨p.1, p.2⟩

end metric

end event

namespace proto

mutual

/-- Modelled from the spec: the wire Value message, a single optional oneof
field named kind; an absent kind models a missing or unrecognized tag. -/
inductive Value where
  | mk (kind : Option ValueKind)

/-- Modelled from the spec: the oneof variants of the wire Value message. -/
inductive ValueKind where
  | raw_bytes (data : List Nat)
  | timestamp (ts : prost_types.Timestamp)
  | integer (v : Int)
  | float (v : F64)
  | boolean (v : Bool)
  | map (m : ValueMap)
  | array (a : ValueArray)
  | null (v : Int)

/-- Modelled from the spec: the wire ValueMap message, a mapping (BTreeMap)
from string keys to wire values. -/
inductive ValueMap where
  | mk (fields : List (String × Value))

/-- Modelled from the spec: the wire ValueArray message, an ordered sequence of
wire values. -/
inductive ValueArray where
  | mk (items : List Value)

end

/-- Accessor for the single field of the wire Value message. -/
def Value.kind : Value → Option ValueKind
  | ⟨k⟩ => k

/-- Accessor for the single field of the wire ValueMap message. -/
def ValueMap.fields : ValueMap → List (String × Value)
  | ⟨f⟩ => f

/-- Accessor for the single field of the wire ValueArray message. -/
def ValueArray.items : ValueArray → List Value
  | ⟨i⟩ => i

/-- Modelled from the spec: wire metric kind enum. -/
inductive Kind where
  | incremental
  | absolute
deriving DecidableEq, Repr

/-- Modelled from the spec: wire statistic kind enum. -/
inductive StatisticKind where
  | histogram
  | summary
deriving DecidableEq, Repr

/-- Modelled from the spec: wire Counter message. -/
structure Counter where
  value : F64
deriving DecidableEq, Repr

/-- Modelled from the spec: wire Gauge message. -/
structure Gauge where
  value : F64
deriving DecidableEq, Repr

/-- Modelled from the spec: wire Set message, a sequence of strings. -/
structure Set where
  values : List String
deriving DecidableEq, Repr

/-- Modelled from the spec: legacy wire Distribution with two parallel
sequences. -/
structure Distribution1 where
  values : List F64
  sample_rates : List Nat
  statistic : StatisticKind
deriving DecidableEq, Repr

/-- Modelled from the spec: one (value, rate) pair of the current wire
Distribution. -/
structure DistributionSample where
  value : F64
  rate : Nat
deriving DecidableEq, Repr

/-- Modelled from the spec: current wire Distribution carrying a sequence of
(value, rate) pairs. -/
structure Distribution2 where
  samples : List DistributionSample
  statistic : StatisticKind
deriving DecidableEq, Repr

/-- Modelled from the spec: legacy wire AggregatedHistogram with two parallel
sequences. -/
structure AggregatedHistogram1 where
  buckets : List F64
  counts : List Nat
  count : Nat
  sum : F64
deriving DecidableEq, Repr

/-- Modelled from the spec: one (upper_limit, count) pair of the current wire
AggregatedHistogram. -/
structure HistogramBucket where
  upper_limit : F64
  count : Nat
deriving DecidableEq, Repr

/-- Modelled from the spec: current wire AggregatedHistogram carrying a
sequence of (upper_limit, count) pairs. -/
structure AggregatedHistogram2 where
  buckets : List HistogramBucket
  count : Nat
  sum : F64
deriving DecidableEq, Repr

/-- Modelled from the spec: legacy wire AggregatedSummary with two parallel
sequences. -/
structure AggregatedSummary1 where
  quantiles : List F64
  values : List F64
  count : Nat
  sum : F64
deriving DecidableEq, Repr

/-- Modelled from the spec: one (quantile, value) pair of the current wire
AggregatedSummary. -/
structure SummaryQuantile where
  quantile : F64
  value : F64
deriving DecidableEq, Repr

/-- Modelled from the spec: current wire AggregatedSummary carrying a sequence
of (quantile, value) pairs. -/
structure AggregatedSummary2 where
  quantiles : List SummaryQuantile
  count : Nat
  sum : F64
deriving DecidableEq, Repr

/-- Modelled from the spec: the wire metric value oneof with its six current
and three legacy sub-variants. -/
inductive MetricValue where
  | counter (c : Counter)
  | gauge (g : Gauge)
  | set (s : Set)
  | distribution1 (d : Distribution1)
  | distribution2 (d : Distribution2)
  | aggregated_histogram1 (h : AggregatedHistogram1)
  | aggregated_histogram2 (h : AggregatedHistogram2)
  | aggregated_summary1 (s : AggregatedSummary1)
  | aggregated_summary2 (s : AggregatedSummary2)
deriving DecidableEq, Repr

/-- Modelled from the spec: the wire Metric message.  Tags model a wire mapping
(BTreeMap of string to string); the value oneof is optional on the wire. -/
structure Metric where
  name : String
  namespace_ : String
  timestamp : Option prost_types.Timestamp
  tags : List (String × String)
  kind : Kind
  value : Option MetricValue
deriving DecidableEq, Repr

/-- Modelled from the spec: wire Chunk message. -/
structure Chunk where
  bytes : List Nat
deriving DecidableEq, Repr

/-- Modelled from the spec: wire Frame message. -/
structure Frame where
  bytes : List Nat
deriving DecidableEq, Repr

/-- Modelled from the spec: wire Log message, a mapping from string keys to
wire values. -/
structure Log where
  fields : List (String × Value)

/-- Modelled from the spec: the oneof variants of the wire event envelope. -/
inductive Event where
  | chunk (c : Chunk)
  | frame (f : Frame)
  | log (l : Log)
  | metric (m : Metric)

/-- Modelled from the spec: the wire EventWrapper envelope with its optional
inner event oneof. -/
structure EventWrapper where
  event : Option Event

end proto

/-- Modelled from the spec: conversion of the wire statistic kind to the
canonical one (1:1). -/
def proto.StatisticKind.decode : proto.StatisticKind → event.StatisticKind
  | .histogram => .histogram
  | .summary => .summary

/-- Modelled from the spec: conversion of a current wire distribution sample to
a canonical sample (field for field). -/
def proto.DistributionSample.decode (s : proto.DistributionSample) : event.Sample :=
  ⟨s.value, s.rate⟩

/-- Modelled from the spec: conversion of a current wire histogram bucket to a
canonical bucket (field for field). -/
def proto.HistogramBucket.decode (b : proto.HistogramBucket) : event.Bucket :=
  ⟨b.upper_limit, b.count⟩

/-- Modelled from the spec: conversion of a current wire summary quantile to a
canonical quantile (field for field). -/
def proto.SummaryQuantile.decode (q : proto.SummaryQuantile) : event.Quantile :=
  ⟨q.quantile, q.value⟩

/-- Modelled from the spec: conversion of a canonical sample to the current
wire distribution sample (field for field). -/
def event.Sample.encode (s : event.Sample) : proto.DistributionSample :=
  ⟨s.value, s.rate⟩

/-- Modelled from the spec: conversion of a canonical bucket to the current
wire histogram bucket (field for field). -/
def event.Bucket.encode (b : event.Bucket) : proto.HistogramBucket :=
  ⟨b.upper_limit, b.count⟩

/-- Modelled from the spec: conversion of a canonical quantile to the current
wire summary quantile (field for field). -/
def event.Quantile.encode (q : event.Quantile) : proto.SummaryQuantile :=
  ⟨q.quantile, q.value⟩

mutual

/-- Translation of decode_value (src/lib/vector-core/src/event/proto.rs lines
239-256): dispatch on the optional kind tag; an absent tag logs an error and
yields none (soft failure). -/
def decode_value : proto.Value → Option event.Value
  | ⟨some (.raw_bytes data)⟩ => some (.bytes data)
  | ⟨some (.timestamp ts)⟩ =>
    some (.timestamp (chrono.utc_timestamp ts.seconds (asU32 ts.nanos)))
  | ⟨some (.integer v)⟩ => some (.integer v)
  | ⟨some (.float v)⟩ => some (.float v)
  | ⟨some (.boolean v)⟩ => some (.boolean v)
  | ⟨some (.map ⟨fields⟩)⟩ => (decode_map_go [] fields).map event.Value.map
  | ⟨some (.array ⟨items⟩)⟩ => (decode_array_go [] items).map event.Value.array
  | ⟨some (.null _)⟩ => some .null
  | ⟨none⟩ => none

/-- The loop of decode_map (proto.rs lines 258-269): insert each decoded entry
into the accumulator BTreeMap, or abort with none on the first entry whose
value decodes to none. -/
def decode_map_go (accum : List (String × event.Value)) :
    List (String × proto.Value) → Option (List (String × event.Value))
  | [] => some accum
  | (key, value) :: rest =>
    match decode_value value with
    | some value => decode_map_go (btreeInsert key value accum) rest
    | none => none

/-- The loop of decode_array (proto.rs lines 271-280): push each decoded item
onto the accumulator in order, or abort with none on the first item that
decodes to none. -/
def decode_array_go (accum : List event.Value) :
    List proto.Value → Option (List event.Value)
  | [] => some accum
  | value :: rest =>
    match decode_value value with
    | some value => decode_array_go (accum ++ [value]) rest
    | none => none

end

/-- Translation of decode_map (proto.rs lines 258-269): fold the entries into a
fresh BTreeMap via decode_map_go, with an early return of none as soon as one
entry fails to decode. -/
def decode_map (fields : List (String × proto.Value)) : Option event.Value :=
  (decode_map_go [] fields).map event.Value.map

/-- Translation of decode_array (proto.rs lines 271-280). -/
def decode_array (items : List proto.Value) : Option event.Value :=
  (decode_array_go [] items).map event.Value.array

mutual

/-- Translation of encode_value (proto.rs lines 282-298): total, every
canonical variant maps to a present wire kind. -/
def encode_value : event.Value → proto.Value
  | .bytes b => ⟨some (.raw_bytes b)⟩
  | .timestamp ts =>
    ⟨some (.timestamp ⟨ts.timestamp, asI32 ts.timestamp_subsec_nanos⟩)⟩
  | .integer value => ⟨some (.integer value)⟩
  | .float value => ⟨some (.float value)⟩
  | .boolean value => ⟨some (.boolean value)⟩
  | .map fields => ⟨some (.map ⟨btreeCollect (encode_map_fields fields)⟩)⟩
  | .array items => ⟨some (.array ⟨encode_array_items items⟩)⟩
  | .null => ⟨some (.null 0)⟩

/-- The entry iteration of encode_map (proto.rs lines 300-307): each value is
encoded, keys are unchanged. -/
def encode_map_fields : List (String × event.Value) → List (String × proto.Value)
  | [] => []
  | (key, value) :: rest => (key, encode_value value) :: encode_map_fields rest

/-- The item iteration of encode_array (proto.rs lines 309-313). -/
def encode_array_items : List event.Value → List proto.Value
  | [] => []
  | value :: rest => encode_value value :: encode_array_items rest

end

/-- Translation of encode_map (proto.rs lines 300-307): encode every entry and
collect the pairs back into a BTreeMap. -/
def encode_map (fields : List (String × event.Value)) : proto.ValueMap :=
  ⟨btreeCollect (encode_map_fields fields)⟩

/-- Translation of encode_array (proto.rs lines 309-313). -/
def encode_array (items : List event.Value) : proto.ValueArray :=
  ⟨encode_array_items items⟩

/-- Translation of the From impl turning a wire Log into a canonical LogEvent
(proto.rs lines 38-48): entries whose value fails to decode are dropped by the
filter_map; the rest are collected into a BTreeMap. -/
def decode_log (log : proto.Log) : event.LogEvent :=
  ⟨btreeCollect (log.fields.filterMap fun kv =>
    (decode_value kv.2).map fun value => (kv.1, value))⟩

/-- Translation of the From impl turning a canonical LogEvent into a wire Log
(proto.rs lines 145-155): the metadata is discarded, every field value is
encoded and collected back into a mapping. -/
def encode_log (log_event : event.LogEvent) : proto.Log :=
  ⟨btreeCollect (log_event.fields.map fun kv => (kv.1, encode_value kv.2))⟩

/-- Translation of the From impl turning a wire Metric into a canonical Metric
(proto.rs lines 50-118).  The source unwraps the optional value oneof,
panicking when it is absent; the panic is modelled as none. -/
def decode_metric (metric : proto.Metric) : Option event.Metric :=
  match metric.value with
  | none => none
  | some wire_value =>
    let kind := match metric.kind with
      | .incremental => event.MetricKind.incremental
      | .absolute => event.MetricKind.absolute
    let name := metric.name
    let namespace_ := if metric.namespace_ = "" then none else some metric.namespace_
    let timestamp := metric.timestamp.map fun ts =>
      chrono.utc_timestamp ts.seconds (asU32 ts.nanos)
    let tags := if metric.tags = [] then none else some metric.tags
    let value := match wire_value with
      | .counter counter => event.MetricValue.counter counter.value
      | .gauge gauge => event.MetricValue.gauge gauge.value
      | .set s => event.MetricValue.set (btreeSetCollect s.values)
      | .distribution1 dist =>
        event.MetricValue.distribution dist.statistic.decode
          (event.metric.zip_samples dist.values dist.sample_rates)
      | .distribution2 dist =>
        event.MetricValue.distribution dist.statistic.decode
          (dist.samples.map proto.DistributionSample.decode)
      | .aggregated_histogram1 hist =>
        event.MetricValue.aggregated_histogram
          (event.metric.zip_buckets hist.buckets hist.counts) hist.count hist.sum
      | .aggregated_histogram2 hist =>
        event.MetricValue.aggregated_histogram
          (hist.buckets.map proto.HistogramBucket.decode) hist.count hist.sum
      | .aggregated_summary1 summary =>
        event.MetricValue.aggregated_summary
          (event.metric.zip_quantiles summary.quantiles summary.values)
          summary.count summary.sum
      | .aggregated_summary2 summary =>
        event.MetricValue.aggregated_summary
          (summary.quantiles.map proto.SummaryQuantile.decode)
          summary.count summary.sum
    some ((((event.Metric.new name kind value).with_namespace namespace_).with_tags
      tags).with_timestamp timestamp)

/-- Translation of the From impl turning a canonical Metric into a wire Metric
(proto.rs lines 157-220): absent namespace and tags re-expand to the empty
string and empty mapping, the value always uses a current sub-variant, and the
value oneof is always present. -/
def encode_metric (metric : event.Metric) : proto.Metric :=
  let name := metric.series.name.name
  let namespace_ := metric.series.name.namespace_.getD ""
  let timestamp := metric.data.timestamp.map fun ts =>
    prost_types.Timestamp.mk ts.timestamp (asI32 ts.timestamp_subsec_nanos)
  let tags := metric.series.tags.getD []
  let kind := match metric.data.kind with
    | .incremental => proto.Kind.incremental
    | .absolute => proto.Kind.absolute
  let value := match metric.data.value with
    | .counter value => proto.MetricValue.counter ⟨value⟩
    | .gauge value => proto.MetricValue.gauge ⟨value⟩
    | .set values => proto.MetricValue.set ⟨values⟩
    | .distribution statistic samples =>
      proto.MetricValue.distribution2
        ⟨samples.map event.Sample.encode,
          match statistic with
          | .histogram => proto.StatisticKind.histogram
          | .summary => proto.StatisticKind.summary⟩
    | .aggregated_histogram buckets count sum =>
      proto.MetricValue.aggregated_histogram2
        ⟨buckets.map event.Bucket.encode, count, sum⟩
    | .aggregated_summary quantiles count sum =>
      proto.MetricValue.aggregated_summary2
        ⟨quantiles.map event.Quantile.encode, count, sum⟩
  ⟨name, namespace_, timestamp, tags, kind, some value⟩

/-- Translation of the From impl turning a wire EventWrapper into a canonical
Event (proto.rs lines 120-131).  The source unwraps the envelope's inner event
oneof, panicking when it is absent (a protocol violation); that fatal branch is
modelled as none.  Chunk and Frame metadata is reset to default. -/
def decode_event_wrapper (proto_ : proto.EventWrapper) : Option event.Event :=
  match proto_.event with
  | none => none
  | some ev =>
    match ev with
    | .chunk c => some (.chunk c.bytes ())
    | .frame f => some (.frame f.bytes ())
    | .log l => some (.log (decode_log l))
    | .metric m => (decode_metric m).map .metric

/-- Translation of the From impl turning a canonical Event into a wire event
oneof (proto.rs lines 222-231). -/
def encode_event : event.Event → proto.Event
  | .chunk bytes _ => .chunk ⟨bytes⟩
  | .frame bytes _ => .frame ⟨bytes⟩
  | .log l => .log (encode_log l)
  | .metric m => .metric (encode_metric m)

/-- Translation of the From impls wrapping an encoded event into an
EventWrapper with its oneof present (proto.rs lines 8-12 and 233-237). -/
def encode_event_wrapper (e : event.Event) : proto.EventWrapper :=
  ⟨some (encode_event e)⟩

/-!  Order facts about the string comparison used by the BTreeMap/BTreeSet
model, and arithmetic facts about the u32/i32 casts. -/

theorem strLt_asymm {a b : String} (h : strLt a b) : ¬ strLt b a := by
  unfold strLt at *
  exact fun h2 => absurd h (asymm h2)

theorem strLt_trans {a b c : String} (h1 : strLt a b) (h2 : strLt b c) : strLt a c := by
  unfold strLt at *
  exact lt_trans h1 h2

theorem string_data_inj {a b : String} (h : a.data = b.data) : a = b := by
  cases a
  cases b
  cases h
  rfl

theorem strLt_ne {a b : String} (h : strLt a b) : a ≠ b := by
  intro he
  cases he
  exact lt_irrefl _ h

theorem strLt_of_not_of_ne {a b : String} (h1 : ¬ strLt a b) (h2 : a ≠ b) : strLt b a := by
  rcases lt_trichotomy a.data b.data with h | h | h
  · exact absurd h h1
  · exact absurd (string_data_inj h) h2
  · exact h

theorem btreeInsert_append {α : Type} (k : String) (v : α) :
    ∀ acc : List (String × α), (∀ p ∈ acc, strLt p.1 k) →
      btreeInsert k v acc = acc ++ [(k, v)]
  | [], _ => rfl
  | (k', v') :: rest, h => by
    have hk : strLt k' k := h (k', v') (by simp)
    rw [btreeInsert, if_neg (strLt_asymm hk), if_neg (Ne.symm (strLt_ne hk)),
      btreeInsert_append k v rest (fun p hp => h p (by simp [hp]))]
    simp

theorem btreeFoldl_ascending {α : Type} :
    ∀ (l acc : List (String × α)), List.Pairwise strLt (l.map Prod.fst) →
      (∀ p ∈ acc, ∀ q ∈ l, strLt p.1 q.1) →
      List.foldl (fun a kv => btreeInsert kv.1 kv.2 a) acc l = acc ++ l
  | [], acc, _, _ => by simp
  | (k, v) :: rest, acc, hsorted, hacc => by
    rw [List.map_cons, List.pairwise_cons] at hsorted
    have hstep : btreeInsert k v acc = acc ++ [(k, v)] :=
      btreeInsert_append k v acc (fun p hp => hacc p hp (k, v) (by simp))
    have hrec := btreeFoldl_ascending rest (acc ++ [(k, v)]) hsorted.2 (by
      intro p hp q hq
      rcases List.mem_append.mp hp with hp | hp
      · exact hacc p hp q (by simp [hq])
      · simp at hp
        subst hp
        exact hsorted.1 q.1 (List.mem_map_of_mem Prod.fst hq))
    simp only [List.foldl_cons, hstep, hrec, List.append_assoc, List.singleton_append]

theorem btreeCollect_ascending {α : Type} (l : List (String × α))
    (h : List.Pairwise strLt (l.map Prod.fst)) : btreeCollect l = l := by
  have := btreeFoldl_ascending l [] h (by simp)
  simpa [btreeCollect] using this

theorem btreeSetInsert_append (s : String) :
    ∀ acc : List String, (∀ t ∈ acc, strLt t s) → btreeSetInsert s acc = acc ++ [s]
  | [], _ => rfl
  | t :: rest, h => by
    have ht : strLt t s := h t (by simp)
    rw [btreeSetInsert, if_neg (strLt_asymm ht), if_neg (Ne.symm (strLt_ne ht)),
      btreeSetInsert_append s rest (fun u hu => h u (by simp [hu]))]
    simp

theorem btreeSetFoldl_ascending :
    ∀ (l acc : List String), List.Pairwise strLt l →
      (∀ t ∈ acc, ∀ u ∈ l, strLt t u) →
      List.foldl (fun a s => btreeSetInsert s a) acc l = acc ++ l
  | [], acc, _, _ => by simp
  | s :: rest, acc, hsorted, hacc => by
    rw [List.pairwise_cons] at hsorted
    have hstep : btreeSetInsert s acc = acc ++ [s] :=
      btreeSetInsert_append s acc (fun t ht => hacc t ht s (by simp))
    have hrec := btreeSetFoldl_ascending rest (acc ++ [s]) hsorted.2 (by
      intro t ht u hu
      rcases List.mem_append.mp ht with ht | ht
      · exact hacc t ht u (by simp [hu])
      · simp at ht
        subst ht
        exact hsorted.1 u hu)
    simp only [List.foldl_cons, hstep, hrec, List.append_assoc, List.singleton_append]

theorem btreeSetCollect_ascending (l : List String)
    (h : List.Pairwise strLt l) : btreeSetCollect l = l := by
  have := btreeSetFoldl_ascending l [] h (by simp)
  simpa [btreeSetCollect] using this

theorem mem_btreeSetInsert {x s : String} :
    ∀ {l : List String}, x ∈ btreeSetInsert s l → x = s ∨ x ∈ l := by
  intro l
  induction l with
  | nil =>
    intro hx
    rw [btreeSetInsert] at hx
    simp at hx
    exact Or.inl hx
  | cons t rest ih =>
    intro hx
    rw [btreeSetInsert] at hx
    split at hx
    · rcases List.mem_cons.mp hx with hx | hx
      · exact Or.inl hx
      · exact Or.inr hx
    · split at hx
      · exact Or.inr hx
      · rcases List.mem_cons.mp hx with hx | hx
        · exact Or.inr (by simp [hx])
        · rcases ih hx with hx | hx
          · exact Or.inl hx
          · exact Or.inr (by simp [hx])

theorem btreeSetInsert_pairwise (s : String) :
    ∀ l : List String, List.Pairwise strLt l →
      List.Pairwise strLt (btreeSetInsert s l)
  | [], _ => by simp [btreeSetInsert]
  | t :: rest, h => by
    rw [List.pairwise_cons] at h
    rw [btreeSetInsert]
    split
    · rename_i hlt
      rw [List.pairwise_cons]
      refine ⟨?_, List.pairwise_cons.mpr h⟩
      intro u hu
      rcases List.mem_cons.mp hu with hu | hu
      · exact hu ▸ hlt
      · exact strLt_trans hlt (h.1 u hu)
    · split
      · exact List.pairwise_cons.mpr h
      · rename_i hnlt hne
        have hts : strLt t s := strLt_of_not_of_ne hnlt hne
        rw [List.pairwise_cons]
        refine ⟨?_, btreeSetInsert_pairwise s rest h.2⟩
        intro u hu
        rcases mem_btreeSetInsert hu with hu | hu
        · exact hu ▸ hts
        · exact h.1 u hu

theorem btreeSetCollect_pairwise (l : List String) :
    List.Pairwise strLt (btreeSetCollect l) := by
  suffices hgen : ∀ (l acc : List String), List.Pairwise strLt acc →
      List.Pairwise strLt (List.foldl (fun a s => btreeSetInsert s a) acc l) by
    exact hgen l [] (by simp)
  intro l
  induction l with
  | nil => intro acc hacc; simpa using hacc
  | cons s rest ih =>
    intro acc hacc
    exact ih (btreeSetInsert s acc) (btreeSetInsert_pairwise s acc hacc)

theorem asU32_lt (n : Int) : asU32 n < 2 ^ 32 := by
  unfold asU32
  omega

theorem asU32_asI32 {n : Nat} (h : n < 2 ^ 32) : asU32 (asI32 n) = n := by
  unfold asU32 asI32
  split <;> omega

theorem asI32_asU32 {i : Int} (h1 : -(2 ^ 31) ≤ i) (h2 : i < 2 ^ 31) :
    asI32 (asU32 i) = i := by
  unfold asU32 asI32
  split <;> omega

mutual

/-- A canonical Value tree free of unrepresentable content: every timestamp
carries a valid subsecond part (below one second), and every map honours the
BTreeMap invariant of strictly ascending keys. -/
def canonical_value : event.Value → Bool
  | .bytes _ => true
  | .timestamp ts => decide (ts.nanos < 1000000000)
  | .integer _ => true
  | .float _ => true
  | .boolean _ => true
  | .map fields =>
    decide (List.Pairwise strLt (fields.map Prod.fst)) && canonical_fields fields
  | .array items => canonical_items items
  | .null => true

/-- canonical_value over every value of a field list. -/
def canonical_fields : List (String × event.Value) → Bool
  | [] => true
  | (_, v) :: rest => canonical_value v && canonical_fields rest

/-- canonical_value over every item of a list. -/
def canonical_items : List event.Value → Bool
  | [] => true
  | v :: rest => canonical_value v && canonical_items rest

end

theorem encode_map_fields_keys :
    ∀ l : List (String × event.Value),
      (encode_map_fields l).map Prod.fst = l.map Prod.fst
  | [] => rfl
  | (k, v) :: rest => by
    rw [encode_map_fields]
    simp [encode_map_fields_keys rest]

theorem decode_map_go_encoded :
    ∀ (l acc : List (String × event.Value)),
      (∀ kv ∈ l, decode_value (encode_value kv.2) = some kv.2) →
      List.Pairwise strLt (l.map Prod.fst) →
      (∀ p ∈ acc, ∀ q ∈ l, strLt p.1 q.1) →
      decode_map_go acc (encode_map_fields l) = some (acc ++ l)
  | [], acc, _, _, _ => by simp [encode_map_fields, decode_map_go]
  | (k, v) :: rest, acc, hpt, hsorted, hacc => by
    rw [List.map_cons, List.pairwise_cons] at hsorted
    have hrec := decode_map_go_encoded rest (acc ++ [(k, v)])
      (fun kv hkv => hpt kv (by simp [hkv])) hsorted.2 (by
        intro p hp q hq
        rcases List.mem_append.mp hp with hp | hp
        · exact hacc p hp q (by simp [hq])
        · simp at hp
          subst hp
          exact hsorted.1 q.1 (List.mem_map_of_mem Prod.fst hq))
    simp only [encode_map_fields, decode_map_go, hpt (k, v) (by simp),
      btreeInsert_append k v acc (fun p hp => hacc p hp (k, v) (by simp)), hrec,
      List.append_assoc, List.singleton_append]

theorem decode_array_go_encoded :
    ∀ (l acc : List event.Value),
      (∀ x ∈ l, decode_value (encode_value x) = some x) →
      decode_array_go acc (encode_array_items l) = some (acc ++ l)
  | [], acc, _ => by simp [encode_array_items, decode_array_go]
  | v :: rest, acc, hpt => by
    have hrec := decode_array_go_encoded rest (acc ++ [v])
      (fun x hx => hpt x (by simp [hx]))
    simp only [encode_array_items, decode_array_go, hpt v (by simp), hrec,
      List.append_assoc, List.singleton_append]

mutual

/-- Round trip of a single canonical value through the wire form. -/
theorem roundtrip_value : ∀ (v : event.Value), canonical_value v = true →
    decode_value (encode_value v) = some v
  | .bytes _, _ => rfl
  | .timestamp ts, h => by
    simp only [canonical_value, decide_eq_true_eq] at h
    cases ts with
    | mk seconds nanos =>
      simp only [encode_value, decode_value, chrono.utc_timestamp,
        chrono.DateTime.timestamp, chrono.DateTime.timestamp_subsec_nanos]
      rw [asU32_asI32 (by simp at h ⊢; omega)]
  | .integer _, _ => rfl
  | .float _, _ => rfl
  | .boolean _, _ => rfl
  | .map fields, h => by
    simp only [canonical_value, Bool.and_eq_true, decide_eq_true_eq] at h
    have hpt := roundtrip_fields fields h.2
    have hkeys : List.Pairwise strLt ((encode_map_fields fields).map Prod.fst) := by
      rw [encode_map_fields_keys]
      exact h.1
    simp only [encode_value, decode_value, btreeCollect_ascending _ hkeys]
    rw [decode_map_go_encoded fields [] hpt h.1 (by simp)]
    rfl
  | .array items, h => by
    have hpt := roundtrip_items items (by simpa [canonical_value] using h)
    simp only [encode_value, decode_value]
    rw [decode_array_go_encoded items [] hpt]
    rfl
  | .null, _ => rfl

/-- Round trip of every value in a canonical field list. -/
theorem roundtrip_fields : ∀ (l : List (String × event.Value)),
    canonical_fields l = true →
    ∀ kv ∈ l, decode_value (encode_value kv.2) = some kv.2
  | [], _, kv, hkv => by simp at hkv
  | (k, v) :: rest, h, kv, hkv => by
    rw [canonical_fields, Bool.and_eq_true] at h
    rcases List.mem_cons.mp hkv with hkv | hkv
    · subst hkv
      exact roundtrip_value _ h.1
    · exact roundtrip_fields rest h.2 kv hkv

/-- Round trip of every value in a canonical item list. -/
theorem roundtrip_items : ∀ (l : List event.Value), canonical_items l = true →
    ∀ x ∈ l, decode_value (encode_value x) = some x
  | [], _, x, hx => by simp at hx
  | v :: rest, h, x, hx => by
    rw [canonical_items, Bool.and_eq_true] at h
    rcases List.mem_cons.mp hx with hx | hx
    · subst hx
      exact roundtrip_value _ h.1
    · exact roundtrip_items rest h.2 x hx

end

/-- The entries of a wire field list that decode, with their keys: what the
decode_map loop inserts when no entry fails. -/
def decodedFields (fields : List (String × proto.Value)) : List (String × event.Value) :=
  fields.filterMap fun kv => (decode_value kv.2).map fun v => (kv.1, v)

theorem decode_map_go_none :
    ∀ (fields : List (String × proto.Value)) (acc : List (String × event.Value)),
      (∃ kv ∈ fields, decode_value kv.2 = none) → decode_map_go acc fields = none
  | [], _, h => by simp at h
  | (k, v) :: rest, acc, h => by
    rcases h with ⟨kv, hmem, hnone⟩
    rcases List.mem_cons.mp hmem with hkv | hkv
    · subst hkv
      simp only [decode_map_go, hnone]
    · cases hd : decode_value v with
      | none => simp only [decode_map_go, hd]
      | some u =>
        simp only [decode_map_go, hd]
        exact decode_map_go_none rest _ ⟨kv, hkv, hnone⟩

theorem decode_array_go_none :
    ∀ (items : List proto.Value) (acc : List event.Value),
      (∃ x ∈ items, decode_value x = none) → decode_array_go acc items = none
  | [], _, h => by simp at h
  | v :: rest, acc, h => by
    rcases h with ⟨x, hmem, hnone⟩
    rcases List.mem_cons.mp hmem with hx | hx
    · subst hx
      simp only [decode_array_go, hnone]
    · cases hd : decode_value v with
      | none => simp only [decode_array_go, hd]
      | some u =>
        simp only [decode_array_go, hd]
        exact decode_array_go_none rest _ ⟨x, hx, hnone⟩

theorem decode_map_go_some :
    ∀ (fields : List (String × proto.Value)) (acc : List (String × event.Value)),
      (∀ kv ∈ fields, (decode_value kv.2).isSome = true) →
      List.Pairwise strLt (fields.map Prod.fst) →
      (∀ p ∈ acc, ∀ q ∈ fields, strLt p.1 q.1) →
      decode_map_go acc fields = some (acc ++ decodedFields fields)
  | [], acc, _, _, _ => by simp [decode_map_go, decodedFields]
  | (k, v) :: rest, acc, hall, hsorted, hacc => by
    rw [List.map_cons, List.pairwise_cons] at hsorted
    obtain ⟨u, hu⟩ := Option.isSome_iff_exists.mp (hall (k, v) (by simp))
    have hrec := decode_map_go_some rest (acc ++ [(k, u)])
      (fun kv hkv => hall kv (by simp [hkv])) hsorted.2 (by
        intro p hp q hq
        rcases List.mem_append.mp hp with hp | hp
        · exact hacc p hp q (by simp [hq])
        · simp at hp
          subst hp
          exact hsorted.1 q.1 (List.mem_map_of_mem Prod.fst hq))
    simp only [decode_map_go, hu,
      btreeInsert_append k u acc (fun p hp => hacc p hp (k, v) (by simp)), hrec,
      decodedFields, List.filterMap_cons, Option.map_some', List.append_assoc,
      List.singleton_append]

theorem decode_array_go_some :
    ∀ (items : List proto.Value) (acc : List event.Value),
      (∀ x ∈ items, (decode_value x).isSome = true) →
      decode_array_go acc items = some (acc ++ items.filterMap decode_value)
  | [], acc, _ => by simp [decode_array_go]
  | v :: rest, acc, hall => by
    obtain ⟨u, hu⟩ := Option.isSome_iff_exists.mp (hall v (by simp))
    have hrec := decode_array_go_some rest (acc ++ [u])
      (fun x hx => hall x (by simp [hx]))
    simp only [decode_array_go, hu, hrec, List.filterMap_cons, List.append_assoc,
      List.singleton_append]

/-- The legacy parallel-array wire sub-variants, which decoding accepts and
encoding never produces. -/
def proto.MetricValue.is_legacy : proto.MetricValue → Bool
  | .distribution1 _ => true
  | .aggregated_histogram1 _ => true
  | .aggregated_summary1 _ => true
  | _ => false

/-- A wire metric value whose Set contents, if any, are already in the
canonical BTreeSet order: strictly ascending, hence duplicate free. -/
def proto.MetricValue.set_values_ascending : proto.MetricValue → Prop
  | .set s => List.Pairwise strLt s.values
  | _ => True

/-- The wire timestamp nanos field holds an i32, so its value always lies in
the i32 range; the Int model states that typing invariant explicitly. -/
def proto.Metric.timestamp_in_range (w : proto.Metric) : Prop :=
  ∀ ts ∈ w.timestamp, -(2 ^ 31) ≤ ts.nanos ∧ ts.nanos < 2 ^ 31

theorem map_map_id {α β : Type} (f : α → β) (g : β → α) (h : ∀ x, g (f x) = x) :
    ∀ l : List α, (l.map f).map g = l
  | [] => rfl
  | a :: t => by simp only [List.map_cons, map_map_id f g h t, h a]

/-- An optional namespace produced by decoding is never the present empty
string, and such an option survives the empty-string round trip. -/
theorem opt_string_norm (o : Option String) (h : o ≠ some "") :
    (if o.getD "" = "" then none else some (o.getD "")) = o := by
  cases o with
  | none => simp
  | some s =>
    have hs : s ≠ "" := fun he => h (by rw [he])
    simp [hs]

/-- Same normalization fact for optional tag mappings and the empty mapping. -/
theorem opt_tags_norm (o : Option (List (String × String))) (h : o ≠ some []) :
    (if o.getD [] = [] then none else some (o.getD [])) = o := by
  cases o with
  | none => simp
  | some t =>
    have ht : t ≠ [] := fun he => h (by rw [he])
    simp [ht]

/-- Decoding is left inverse to encoding on every metric in the image of
decoding: decoded metrics are normalized, and encode then decode reproduces
them exactly. -/
theorem decode_metric_normalized (w : proto.Metric) (m : event.Metric)
    (h : decode_metric w = some m) : decode_metric (encode_metric m) = some m := by
  obtain ⟨name, ns, ts, tags, kind, value⟩ := w
  cases value with
  | none => simp [decode_metric] at h
  | some v =>
    simp only [decode_metric, Option.some.injEq] at h
    subst h
    cases v with
    | counter c =>
      simp only [encode_metric, decode_metric, event.Metric.new,
        event.Metric.with_namespace, event.Metric.with_tags,
        event.Metric.with_timestamp, Option.some.injEq, event.Metric.mk.injEq,
        event.MetricSeries.mk.injEq, event.MetricName.mk.injEq,
        event.MetricData.mk.injEq]
      and_intros <;> first
        | trivial
        | exact opt_string_norm _ (by by_cases hns : ns = "" <;> simp [hns])
        | exact opt_tags_norm _ (by by_cases htags : tags = [] <;> simp [htags])
        | (cases ts with
            | none => rfl
            | some t =>
              simp only [Option.map_some', chrono.utc_timestamp,
                chrono.DateTime.timestamp, chrono.DateTime.timestamp_subsec_nanos,
                Option.some.injEq]
              rw [asU32_asI32 (asU32_lt t.nanos)])
        | (cases kind <;> rfl)
    | gauge g =>
      simp only [encode_metric, decode_metric, event.Metric.new,
        event.Metric.with_namespace, event.Metric.with_tags,
        event.Metric.with_timestamp, Option.some.injEq, event.Metric.mk.injEq,
        event.MetricSeries.mk.injEq, event.MetricName.mk.injEq,
        event.MetricData.mk.injEq]
      and_intros <;> first
        | trivial
        | exact opt_string_norm _ (by by_cases hns : ns = "" <;> simp [hns])
        | exact opt_tags_norm _ (by by_cases htags : tags = [] <;> simp [htags])
        | (cases ts with
            | none => rfl
            | some t =>
              simp only [Option.map_some', chrono.utc_timestamp,
                chrono.DateTime.timestamp, chrono.DateTime.timestamp_subsec_nanos,
                Option.some.injEq]
              rw [asU32_asI32 (asU32_lt t.nanos)])
        | (cases kind <;> rfl)
    | set s =>
      simp only [encode_metric, decode_metric, event.Metric.new,
        event.Metric.with_namespace, event.Metric.with_tags,
        event.Metric.with_timestamp, Option.some.injEq, event.Metric.mk.injEq,
        event.MetricSeries.mk.injEq, event.MetricName.mk.injEq,
        event.MetricData.mk.injEq]
      and_intros <;> first
        | trivial
        | exact opt_string_norm _ (by by_cases hns : ns = "" <;> simp [hns])
        | exact opt_tags_norm _ (by by_cases htags : tags = [] <;> simp [htags])
        | (cases ts with
            | none => rfl
            | some t =>
              simp only [Option.map_some', chrono.utc_timestamp,
                chrono.DateTime.timestamp, chrono.DateTime.timestamp_subsec_nanos,
                Option.some.injEq]
              rw [asU32_asI32 (asU32_lt t.nanos)])
        | (cases kind <;> rfl)
        | exact congrArg event.MetricValue.set
            (btreeSetCollect_ascending _ (btreeSetCollect_pairwise _))
    | distribution1 d =>
      obtain ⟨values, rates, st⟩ := d
      simp only [encode_metric, decode_metric, event.Metric.new,
        event.Metric.with_namespace, event.Metric.with_tags,
        event.Metric.with_timestamp, Option.some.injEq, event.Metric.mk.injEq,
        event.MetricSeries.mk.injEq, event.MetricName.mk.injEq,
        event.MetricData.mk.injEq]
      and_intros <;> first
        | trivial
        | exact opt_string_norm _ (by by_cases hns : ns = "" <;> simp [hns])
        | exact opt_tags_norm _ (by by_cases htags : tags = [] <;> simp [htags])
        | (cases ts with
            | none => rfl
            | some t =>
              simp only [Option.map_some', chrono.utc_timestamp,
                chrono.DateTime.timestamp, chrono.DateTime.timestamp_subsec_nanos,
                Option.some.injEq]
              rw [asU32_asI32 (asU32_lt t.nanos)])
        | (cases kind <;> rfl)
        | (cases st <;>
            · rw [map_map_id event.Sample.encode proto.DistributionSample.decode
                (fun _ => rfl)]
              rfl)
    | distribution2 d =>
      obtain ⟨samples, st⟩ := d
      simp only [encode_metric, decode_metric, event.Metric.new,
        event.Metric.with_namespace, event.Metric.with_tags,
        event.Metric.with_timestamp, Option.some.injEq, event.Metric.mk.injEq,
        event.MetricSeries.mk.injEq, event.MetricName.mk.injEq,
        event.MetricData.mk.injEq]
      and_intros <;> first
        | trivial
        | exact opt_string_norm _ (by by_cases hns : ns = "" <;> simp [hns])
        | exact opt_tags_norm _ (by by_cases htags : tags = [] <;> simp [htags])
        | (cases ts with
            | none => rfl
            | some t =>
              simp only [Option.map_some', chrono.utc_timestamp,
                chrono.DateTime.timestamp, chrono.DateTime.timestamp_subsec_nanos,
                Option.some.injEq]
              rw [asU32_asI32 (asU32_lt t.nanos)])
        | (cases kind <;> rfl)
        | (cases st <;>
            · rw [map_map_id event.Sample.encode proto.DistributionSample.decode
                (fun _ => rfl)]
              rfl)
    | aggregated_histogram1 hh =>
      obtain ⟨buckets, counts, count, sum⟩ := hh
      simp only [encode_metric, decode_metric, event.Metric.new,
        event.Metric.with_namespace, event.Metric.with_tags,
        event.Metric.with_timestamp, Option.some.injEq, event.Metric.mk.injEq,
        event.MetricSeries.mk.injEq, event.MetricName.mk.injEq,
        event.MetricData.mk.injEq]
      and_intros <;> first
        | trivial
        | exact opt_string_norm _ (by by_cases hns : ns = "" <;> simp [hns])
        | exact opt_tags_norm _ (by by_cases htags : tags = [] <;> simp [htags])
        | (cases ts with
            | none => rfl
            | some t =>
              simp only [Option.map_some', chrono.utc_timestamp,
                chrono.DateTime.timestamp, chrono.DateTime.timestamp_subsec_nanos,
                Option.some.injEq]
              rw [asU32_asI32 (asU32_lt t.nanos)])
        | (cases kind <;> rfl)
        | rw [map_map_id event.Bucket.encode proto.HistogramBucket.decode
            (fun _ => rfl)]
    | aggregated_histogram2 hh =>
      obtain ⟨buckets, count, sum⟩ := hh
      simp only [encode_metric, decode_metric, event.Metric.new,
        event.Metric.with_namespace, event.Metric.with_tags,
        event.Metric.with_timestamp, Option.some.injEq, event.Metric.mk.injEq,
        event.MetricSeries.mk.injEq, event.MetricName.mk.injEq,
        event.MetricData.mk.injEq]
      and_intros <;> first
        | trivial
        | exact opt_string_norm _ (by by_cases hns : ns = "" <;> simp [hns])
        | exact opt_tags_norm _ (by by_cases htags : tags = [] <;> simp [htags])
        | (cases ts with
            | none => rfl
            | some t =>
              simp only [Option.map_some', chrono.utc_timestamp,
                chrono.DateTime.timestamp, chrono.DateTime.timestamp_subsec_nanos,
                Option.some.injEq]
              rw [asU32_asI32 (asU32_lt t.nanos)])
        | (cases kind <;> rfl)
        | rw [map_map_id event.Bucket.encode proto.HistogramBucket.decode
            (fun _ => rfl)]
    | aggregated_summary1 s =>
      obtain ⟨quantiles, values, count, sum⟩ := s
      simp only [encode_metric, decode_metric, event.Metric.new,
        event.Metric.with_namespace, event.Metric.with_tags,
        event.Metric.with_timestamp, Option.some.injEq, event.Metric.mk.injEq,
        event.MetricSeries.mk.injEq, event.MetricName.mk.injEq,
        event.MetricData.mk.injEq]
      and_intros <;> first
        | trivial
        | exact opt_string_norm _ (by by_cases hns : ns = "" <;> simp [hns])
        | exact opt_tags_norm _ (by by_cases htags : tags = [] <;> simp [htags])
        | (cases ts with
            | none => rfl
            | some t =>
              simp only [Option.map_some', chrono.utc_timestamp,
                chrono.DateTime.timestamp, chrono.DateTime.timestamp_subsec_nanos,
                Option.some.injEq]
              rw [asU32_asI32 (asU32_lt t.nanos)])
        | (cases kind <;> rfl)
        | rw [map_map_id event.Quantile.encode proto.SummaryQuantile.decode
            (fun _ => rfl)]
    | aggregated_summary2 s =>
      obtain ⟨quantiles, count, sum⟩ := s
      simp only [encode_metric, decode_metric, event.Metric.new,
        event.Metric.with_namespace, event.Metric.with_tags,
        event.Metric.with_timestamp, Option.some.injEq, event.Metric.mk.injEq,
        event.MetricSeries.mk.injEq, event.MetricName.mk.injEq,
        event.MetricData.mk.injEq]
      and_intros <;> first
        | trivial
        | exact opt_string_norm _ (by by_cases hns : ns = "" <;> simp [hns])
        | exact opt_tags_norm _ (by by_cases htags : tags = [] <;> simp [htags])
        | (cases ts with
            | none => rfl
            | some t =>
              simp only [Option.map_some', chrono.utc_timestamp,
                chrono.DateTime.timestamp, chrono.DateTime.timestamp_subsec_nanos,
                Option.some.injEq]
              rw [asU32_asI32 (asU32_lt t.nanos)])
        | (cases kind <;> rfl)
        | rw [map_map_id event.Quantile.encode proto.SummaryQuantile.decode
            (fun _ => rfl)]


theorem zip_get? {α β : Type} :
    ∀ (l1 : List α) (l2 : List β) (i : Nat),
      (l1.zip l2).get? i =
        match l1.get? i, l2.get? i with
        | some a, some b => some (a, b)
        | _, _ => none
  | [], _, _ => rfl
  | a :: t1, [], i => by
    cases h : (a :: t1).get? i <;> simp [h, List.zip]
  | a :: t1, b :: t2, 0 => rfl
  | a :: t1, b :: t2, (i + 1) => zip_get? t1 t2 i

theorem zip_samples_get? (values : List F64) (rates : List Nat) (i : Nat) :
    (event.metric.zip_samples values rates).get? i =
      match values.get? i, rates.get? i with
      | some v, some r => some ⟨v, r⟩
      | _, _ => none := by
  rw [event.metric.zip_samples, List.get?_map, zip_get?]
  cases values.get? i <;> cases rates.get? i <;> rfl

theorem zip_buckets_get? (buckets : List F64) (counts : List Nat) (i : Nat) :
    (event.metric.zip_buckets buckets counts).get? i =
      match buckets.get? i, counts.get? i with
      | some b, some c => some ⟨b, c⟩
      | _, _ => none := by
  rw [event.metric.zip_buckets, List.get?_map, zip_get?]
  cases buckets.get? i <;> cases counts.get? i <;> rfl

theorem zip_quantiles_get? (quantiles : List F64) (values : List F64) (i : Nat) :
    (event.metric.zip_quantiles quantiles values).get? i =
      match quantiles.get? i, values.get? i with
      | some q, some v => some ⟨q, v⟩
      | _, _ => none := by
  rw [event.metric.zip_quantiles, List.get?_map, zip_get?]
  cases quantiles.get? i <;> cases values.get? i <;> rfl

/-- A nested canonical value exercising every representable variant, with map
keys in BTreeMap order. -/
def c1_example : event.Value :=
  .map [("alpha", .array [.integer 7, .null, .boolean true]),
    ("beta", .timestamp ⟨1700000000, 123456789⟩),
    ("gamma", .map [("x", .bytes [0, 255]), ("y", .float ⟨4611686018427387904⟩)])]

/-- C1: for every canonical Value tree v containing no unrepresentable content
(Bytes, Timestamp with valid nanosecond subsecond part, Integer, Float,
Boolean, Map, Array, Null at any nesting depth), decoding the encoding is the
identity: decode_value (encode_value v) = some v, with Map entries and Array
order preserved exactly. -/
theorem value_codec_roundtrip (v : event.Value) (h : canonical_value v = true) :
    decode_value (encode_value v) = some v :=
  roundtrip_value v h

theorem value_codec_roundtrip_witness :
    canonical_value c1_example = true ∧
      decode_value (encode_value c1_example) = some c1_example :=
  ⟨rfl, value_codec_roundtrip c1_example rfl⟩

/-- C3: for every legacy parallel-array metric value, decode_metric pairs the
two sequences element-wise by index and stops at the length of the shorter
sequence, silently dropping the excess trailing elements of the longer one; in
particular Distribution1 with values [1.0, 2.0, 3.0] and sample_rates [5]
decodes to the single sample (1.0, 5). -/
theorem legacy_pairing_zip (w : proto.Metric) :
    (∀ d, w.value = some (.distribution1 d) → ∃ m, decode_metric w = some m ∧
      m.data.value = .distribution d.statistic.decode
        (event.metric.zip_samples d.values d.sample_rates)) ∧
    (∀ hh, w.value = some (.aggregated_histogram1 hh) → ∃ m,
      decode_metric w = some m ∧
      m.data.value = .aggregated_histogram
        (event.metric.zip_buckets hh.buckets hh.counts) hh.count hh.sum) ∧
    (∀ s, w.value = some (.aggregated_summary1 s) → ∃ m,
      decode_metric w = some m ∧
      m.data.value = .aggregated_summary
        (event.metric.zip_quantiles s.quantiles s.values) s.count s.sum) ∧
    (∀ (values : List F64) (rates : List Nat) (i : Nat),
      (event.metric.zip_samples values rates).get? i =
        match values.get? i, rates.get? i with
        | some v, some r => some ⟨v, r⟩
        | _, _ => none) ∧
    (∀ (buckets : List F64) (counts : List Nat) (i : Nat),
      (event.metric.zip_buckets buckets counts).get? i =
        match buckets.get? i, counts.get? i with
        | some b, some c => some ⟨b, c⟩
        | _, _ => none) ∧
    (∀ (quantiles values : List F64) (i : Nat),
      (event.metric.zip_quantiles quantiles values).get? i =
        match quantiles.get? i, values.get? i with
        | some q, some v => some ⟨q, v⟩
        | _, _ => none) ∧
    (∀ (values : List F64) (rates : List Nat),
      (event.metric.zip_samples values rates).length =
        min values.length rates.length) ∧
    event.metric.zip_samples [⟨1⟩, ⟨2⟩, ⟨3⟩] [5] = [⟨⟨1⟩, 5⟩] := by
  obtain ⟨name, ns, ts, tags, kind, value⟩ := w
  refine ⟨fun d hv => ?_, fun hh hv => ?_, fun s hv => ?_,
    zip_samples_get?, zip_buckets_get?, zip_quantiles_get?, fun values rates => ?_, rfl⟩
  · subst hv
    exact ⟨_, rfl, rfl⟩
  · subst hv
    exact ⟨_, rfl, rfl⟩
  · subst hv
    exact ⟨_, rfl, rfl⟩
  · simp [event.metric.zip_samples]

theorem legacy_pairing_zip_witness :
    ∃ m, decode_metric ⟨"lat", "", none, [], .incremental,
        some (.distribution1 ⟨[⟨1⟩, ⟨2⟩, ⟨3⟩], [5], .histogram⟩)⟩ = some m ∧
      m.data.value = .distribution proto.StatisticKind.histogram.decode
        (event.metric.zip_samples [⟨1⟩, ⟨2⟩, ⟨3⟩] [5]) :=
  (legacy_pairing_zip ⟨"lat", "", none, [], .incremental,
    some (.distribution1 ⟨[⟨1⟩, ⟨2⟩, ⟨3⟩], [5], .histogram⟩)⟩).1 _ rfl

/-- C4: for every canonical Metric whose value is a Distribution,
AggregatedHistogram, or AggregatedSummary, encode_metric emits the current
paired-sequence wire sub-variant; the legacy sub-variants are never produced
by encoding, for any input. -/
theorem encode_metric_never_legacy (m : event.Metric) :
    ∃ wv, (encode_metric m).value = some wv ∧ wv.is_legacy = false ∧
      (∀ st samples, m.data.value = .distribution st samples →
        ∃ d, wv = .distribution2 d) ∧
      (∀ buckets count sum, m.data.value = .aggregated_histogram buckets count sum →
        ∃ hh, wv = .aggregated_histogram2 hh) ∧
      (∀ quantiles count sum, m.data.value = .aggregated_summary quantiles count sum →
        ∃ s, wv = .aggregated_summary2 s) := by
  obtain ⟨⟨⟨name, ns⟩, tags⟩, ⟨ts, kind, value⟩⟩ := m
  cases value with
  | counter c =>
    refine ⟨_, rfl, rfl, ?_, ?_, ?_⟩
    · intro st samples h
      exact absurd h (by simp)
    · intro b c2 s h
      exact absurd h (by simp)
    · intro q c2 s h
      exact absurd h (by simp)
  | gauge g =>
    refine ⟨_, rfl, rfl, ?_, ?_, ?_⟩
    · intro st samples h
      exact absurd h (by simp)
    · intro b c2 s h
      exact absurd h (by simp)
    · intro q c2 s h
      exact absurd h (by simp)
  | set vs =>
    refine ⟨_, rfl, rfl, ?_, ?_, ?_⟩
    · intro st samples h
      exact absurd h (by simp)
    · intro b c2 s h
      exact absurd h (by simp)
    · intro q c2 s h
      exact absurd h (by simp)
  | distribution st samples =>
    refine ⟨_, rfl, by cases st <;> rfl, ?_, ?_, ?_⟩
    · intro st2 samples2 h
      exact ⟨_, rfl⟩
    · intro b c2 s h
      exact absurd h (by simp)
    · intro q c2 s h
      exact absurd h (by simp)
  | aggregated_histogram buckets count sum =>
    refine ⟨_, rfl, rfl, ?_, ?_, ?_⟩
    · intro st samples h
      exact absurd h (by simp)
    · intro b c2 s h
      exact ⟨_, rfl⟩
    · intro q c2 s h
      exact absurd h (by simp)
  | aggregated_summary quantiles count sum =>
    refine ⟨_, rfl, rfl, ?_, ?_, ?_⟩
    · intro st samples h
      exact absurd h (by simp)
    · intro b c2 s h
      exact absurd h (by simp)
    · intro q c2 s h
      exact ⟨_, rfl⟩

theorem encode_metric_never_legacy_witness :
    ∃ wv, (encode_metric ⟨⟨⟨"d", none⟩, none⟩,
        ⟨none, .incremental, .distribution .summary [⟨⟨2⟩, 3⟩]⟩⟩).value = some wv ∧
      wv.is_legacy = false ∧ ∃ d, wv = .distribution2 d := by
  obtain ⟨wv, h1, h2, h3, _, _⟩ := encode_metric_never_legacy
    ⟨⟨⟨"d", none⟩, none⟩, ⟨none, .incremental, .distribution .summary [⟨⟨2⟩, 3⟩]⟩⟩
  exact ⟨wv, h1, h2, h3 _ _ rfl⟩

/-- C5: decode_value on a wire Value whose kind tag is absent returns absent (a
soft failure); decoding a wire Map or Array is all-or-nothing: if any contained
entry decodes to absent the entire container decodes to absent (never a
partially populated container, never Null), while if every entry decodes the
result contains all entries, with Array order preserved and Map keys in their
wire BTreeMap order. -/
theorem value_decode_all_or_nothing :
    decode_value ⟨none⟩ = none ∧
    (∀ fields, (∃ kv ∈ fields, decode_value kv.2 = none) →
      decode_map fields = none) ∧
    (∀ items, (∃ x ∈ items, decode_value x = none) →
      decode_array items = none) ∧
    (∀ fields, (∀ kv ∈ fields, (decode_value kv.2).isSome = true) →
      List.Pairwise strLt (fields.map Prod.fst) →
      decode_map fields = some (.map (decodedFields fields))) ∧
    (∀ items, (∀ x ∈ items, (decode_value x).isSome = true) →
      decode_array items = some (.array (items.filterMap decode_value))) := by
  refine ⟨rfl, fun fields h => ?_, fun items h => ?_,
    fun fields hall hsorted => ?_, fun items hall => ?_⟩
  · rw [decode_map, decode_map_go_none fields [] h]
    rfl
  · rw [decode_array, decode_array_go_none items [] h]
    rfl
  · rw [decode_map, decode_map_go_some fields [] hall hsorted (by simp)]
    rfl
  · rw [decode_array, decode_array_go_some items [] hall]
    rfl

theorem value_decode_all_or_nothing_witness :
    decode_map [("a", ⟨some (.integer 5)⟩), ("b", ⟨none⟩)] = none ∧
    decode_array [⟨some (.boolean true)⟩, ⟨none⟩] = none ∧
    decode_map [("a", ⟨some (.integer 5)⟩)] =
      some (.map (decodedFields [("a", ⟨some (.integer 5)⟩)])) ∧
    decode_array [⟨some (.integer 5)⟩, ⟨some (.null 0)⟩] =
      some (.array ([⟨some (.integer 5)⟩, ⟨some (.null 0)⟩].filterMap decode_value)) := by
  refine ⟨value_decode_all_or_nothing.2.1 _ ⟨("b", ⟨none⟩), by simp, rfl⟩,
    value_decode_all_or_nothing.2.2.1 _ ⟨⟨none⟩, by simp, rfl⟩,
    value_decode_all_or_nothing.2.2.2.1 _ ?_ (by simp),
    value_decode_all_or_nothing.2.2.2.2 _ ?_⟩
  · intro kv hkv
    rcases List.mem_cons.mp hkv with hkv | hkv
    · subst hkv
      rfl
    · simp at hkv
  · intro x hx
    rcases List.mem_cons.mp hx with hx | hx
    · subst hx
      rfl
    · rcases List.mem_cons.mp hx with hx | hx
      · subst hx
        rfl
      · simp at hx

/-- C6: decoding an EventWrapper whose inner event oneof is absent is a fatal
error aborting that message (modelled as none at the top level, reachable only
from that protocol violation), whereas decoding a Log event with zero fields
succeeds and yields a log event with an empty field mapping. -/
theorem wrapper_absent_fatal_empty_log_ok :
    decode_event_wrapper ⟨none⟩ = none ∧
    decode_event_wrapper ⟨some (.log ⟨[]⟩)⟩ = some (.log ⟨[]⟩) :=
  ⟨rfl, rfl⟩

/-- C9: decoding a wire Set collects its string sequence into a
duplicate-eliminating set: Set with values a, a, b decodes to a set of size 2
containing exactly a and b, and re-encoding that metric yields a wire sequence
of length 2 containing exactly a and b. -/
theorem set_dedup_roundtrip :
    ∃ m vs ws,
      decode_metric ⟨"requests", "", none, [], .incremental,
        some (.set ⟨["a", "a", "b"]⟩)⟩ = some m ∧
      m.data.value = .set vs ∧
      vs.length = 2 ∧ "a" ∈ vs ∧ "b" ∈ vs ∧ (∀ x ∈ vs, x = "a" ∨ x = "b") ∧
      (encode_metric m).value = some (.set ⟨ws⟩) ∧
      ws.length = 2 ∧ "a" ∈ ws ∧ "b" ∈ ws ∧ (∀ x ∈ ws, x = "a" ∨ x = "b") := by
  refine ⟨_, ["a", "b"], ["a", "b"], rfl, rfl, rfl, by simp, by simp, ?_, rfl,
    rfl, by simp, by simp, ?_⟩ <;>
    · intro x hx
      rcases List.mem_cons.mp hx with hx | hx
      · exact Or.inl hx
      · rcases List.mem_cons.mp hx with hx | hx
        · exact Or.inr hx
        · simp at hx

/-- C10: every wire message produced by the encoders has its oneof fields
populated: the encoded EventWrapper always carries an inner event and the
encoded wire Metric always carries a value; consequently decoding any
encoder-produced wrapper never reaches the fatal absent branches. -/
theorem encoders_populate_oneofs :
    (∀ e : event.Event, (encode_event_wrapper e).event.isSome = true) ∧
    (∀ m : event.Metric, (encode_metric m).value.isSome = true) ∧
    (∀ e : event.Event, ∃ e',
      decode_event_wrapper (encode_event_wrapper e) = some e') := by
  refine ⟨fun e => rfl, fun m => rfl, fun e => ?_⟩
  cases e with
  | chunk bytes meta => exact ⟨_, rfl⟩
  | frame bytes meta => exact ⟨_, rfl⟩
  | log l => exact ⟨_, rfl⟩
  | metric m => exact ⟨_, rfl⟩

/-- C2 counterexample: a wire metric using only current sub-variants whose Set
values carry a duplicate is not reproduced byte-equal by encode after decode:
the set collapses the duplicate. -/
theorem metric_reencode_counterexample :
    ¬ ((decode_metric ⟨"n", "", none, [], .incremental,
        some (.set ⟨["a", "a"]⟩)⟩).map encode_metric =
      some ⟨"n", "", none, [], .incremental, some (.set ⟨["a", "a"]⟩)⟩) := by
  decide

/-- C2 amended: for every wire Metric whose value field is present and uses
only the current sub-variants, whose Set values (when the value is a Set) are
strictly ascending — deduplicated and in the canonical set order — and whose
timestamp nanos lies in the i32 range the wire type guarantees,
encode_metric (decode_metric w) equals w exactly, for any namespace, tags and
timestamp. -/
theorem metric_reencode_current (w : proto.Metric) (v : proto.MetricValue)
    (hv : w.value = some v) (hcur : v.is_legacy = false)
    (hset : v.set_values_ascending) (hts : w.timestamp_in_range) :
    (decode_metric w).map encode_metric = some w := by
  obtain ⟨name, ns, ts, tags, kind, value⟩ := w
  simp only [proto.Metric.timestamp_in_range] at hts
  simp only at hv
  subst hv
  cases v with
  | distribution1 d => simp [proto.MetricValue.is_legacy] at hcur
  | aggregated_histogram1 hh => simp [proto.MetricValue.is_legacy] at hcur
  | aggregated_summary1 s => simp [proto.MetricValue.is_legacy] at hcur
  | counter c =>
    simp only [decode_metric, Option.map_some', encode_metric, event.Metric.new,
      event.Metric.with_namespace, event.Metric.with_tags,
      event.Metric.with_timestamp, Option.some.injEq, proto.Metric.mk.injEq]
    and_intros <;> first
      | trivial
      | (by_cases hns : ns = "" <;> simp [hns] <;> done)
      | (by_cases htags : tags = [] <;> simp [htags] <;> done)
      | (cases kind <;> rfl)
      | (cases ts with
          | none => rfl
          | some t =>
            obtain ⟨tsec, tnan⟩ := t
            have hr := hts ⟨tsec, tnan⟩ (by simp)
            simp only [Option.map_some', Function.comp_apply, chrono.utc_timestamp,
              chrono.DateTime.timestamp, chrono.DateTime.timestamp_subsec_nanos,
              Option.some.injEq, prost_types.Timestamp.mk.injEq]
            exact ⟨by trivial, asI32_asU32 hr.1 hr.2⟩)
  | gauge g =>
    simp only [decode_metric, Option.map_some', encode_metric, event.Metric.new,
      event.Metric.with_namespace, event.Metric.with_tags,
      event.Metric.with_timestamp, Option.some.injEq, proto.Metric.mk.injEq]
    and_intros <;> first
      | trivial
      | (by_cases hns : ns = "" <;> simp [hns] <;> done)
      | (by_cases htags : tags = [] <;> simp [htags] <;> done)
      | (cases kind <;> rfl)
      | (cases ts with
          | none => rfl
          | some t =>
            obtain ⟨tsec, tnan⟩ := t
            have hr := hts ⟨tsec, tnan⟩ (by simp)
            simp only [Option.map_some', Function.comp_apply, chrono.utc_timestamp,
              chrono.DateTime.timestamp, chrono.DateTime.timestamp_subsec_nanos,
              Option.some.injEq, prost_types.Timestamp.mk.injEq]
            exact ⟨by trivial, asI32_asU32 hr.1 hr.2⟩)
  | set s =>
    obtain ⟨svalues⟩ := s
    simp only [proto.MetricValue.set_values_ascending] at hset
    simp only [decode_metric, Option.map_some', encode_metric, event.Metric.new,
      event.Metric.with_namespace, event.Metric.with_tags,
      event.Metric.with_timestamp, Option.some.injEq, proto.Metric.mk.injEq]
    and_intros <;> first
      | trivial
      | (by_cases hns : ns = "" <;> simp [hns] <;> done)
      | (by_cases htags : tags = [] <;> simp [htags] <;> done)
      | (cases kind <;> rfl)
      | (cases ts with
          | none => rfl
          | some t =>
            obtain ⟨tsec, tnan⟩ := t
            have hr := hts ⟨tsec, tnan⟩ (by simp)
            simp only [Option.map_some', Function.comp_apply, chrono.utc_timestamp,
              chrono.DateTime.timestamp, chrono.DateTime.timestamp_subsec_nanos,
              Option.some.injEq, prost_types.Timestamp.mk.injEq]
            exact ⟨by trivial, asI32_asU32 hr.1 hr.2⟩)
      | exact congrArg proto.MetricValue.set
          (congrArg proto.Set.mk (btreeSetCollect_ascending _ hset))
  | distribution2 d =>
    obtain ⟨samples, st⟩ := d
    simp only [decode_metric, Option.map_some', encode_metric, event.Metric.new,
      event.Metric.with_namespace, event.Metric.with_tags,
      event.Metric.with_timestamp, Option.some.injEq, proto.Metric.mk.injEq]
    and_intros <;> first
      | trivial
      | (by_cases hns : ns = "" <;> simp [hns] <;> done)
      | (by_cases htags : tags = [] <;> simp [htags] <;> done)
      | (cases kind <;> rfl)
      | (cases ts with
          | none => rfl
          | some t =>
            obtain ⟨tsec, tnan⟩ := t
            have hr := hts ⟨tsec, tnan⟩ (by simp)
            simp only [Option.map_some', Function.comp_apply, chrono.utc_timestamp,
              chrono.DateTime.timestamp, chrono.DateTime.timestamp_subsec_nanos,
              Option.some.injEq, prost_types.Timestamp.mk.injEq]
            exact ⟨by trivial, asI32_asU32 hr.1 hr.2⟩)
      | (cases st <;>
          · rw [map_map_id proto.DistributionSample.decode event.Sample.encode
              (fun _ => rfl)]
            rfl)
  | aggregated_histogram2 hh =>
    obtain ⟨buckets, count, sum⟩ := hh
    simp only [decode_metric, Option.map_some', encode_metric, event.Metric.new,
      event.Metric.with_namespace, event.Metric.with_tags,
      event.Metric.with_timestamp, Option.some.injEq, proto.Metric.mk.injEq]
    and_intros <;> first
      | trivial
      | (by_cases hns : ns = "" <;> simp [hns] <;> done)
      | (by_cases htags : tags = [] <;> simp [htags] <;> done)
      | (cases kind <;> rfl)
      | (cases ts with
          | none => rfl
          | some t =>
            obtain ⟨tsec, tnan⟩ := t
            have hr := hts ⟨tsec, tnan⟩ (by simp)
            simp only [Option.map_some', Function.comp_apply, chrono.utc_timestamp,
              chrono.DateTime.timestamp, chrono.DateTime.timestamp_subsec_nanos,
              Option.some.injEq, prost_types.Timestamp.mk.injEq]
            exact ⟨by trivial, asI32_asU32 hr.1 hr.2⟩)
      | (rw [map_map_id proto.HistogramBucket.decode event.Bucket.encode
            (fun _ => rfl)])
  | aggregated_summary2 s =>
    obtain ⟨quantiles, count, sum⟩ := s
    simp only [decode_metric, Option.map_some', encode_metric, event.Metric.new,
      event.Metric.with_namespace, event.Metric.with_tags,
      event.Metric.with_timestamp, Option.some.injEq, proto.Metric.mk.injEq]
    and_intros <;> first
      | trivial
      | (by_cases hns : ns = "" <;> simp [hns] <;> done)
      | (by_cases htags : tags = [] <;> simp [htags] <;> done)
      | (cases kind <;> rfl)
      | (cases ts with
          | none => rfl
          | some t =>
            obtain ⟨tsec, tnan⟩ := t
            have hr := hts ⟨tsec, tnan⟩ (by simp)
            simp only [Option.map_some', Function.comp_apply, chrono.utc_timestamp,
              chrono.DateTime.timestamp, chrono.DateTime.timestamp_subsec_nanos,
              Option.some.injEq, prost_types.Timestamp.mk.injEq]
            exact ⟨by trivial, asI32_asU32 hr.1 hr.2⟩)
      | (rw [map_map_id proto.SummaryQuantile.decode event.Quantile.encode
            (fun _ => rfl)])

theorem metric_reencode_current_witness :
    (decode_metric ⟨"reqs", "prod", some ⟨100, 250⟩, [("host", "x")], .absolute,
        some (.set ⟨["a", "b"]⟩)⟩).map encode_metric =
      some ⟨"reqs", "prod", some ⟨100, 250⟩, [("host", "x")], .absolute,
        some (.set ⟨["a", "b"]⟩)⟩ :=
  metric_reencode_current _ (.set ⟨["a", "b"]⟩) rfl rfl
    (by simp only [proto.MetricValue.set_values_ascending]; decide)
    (by intro t ht; simp at ht; subst ht; exact ⟨by norm_num, by norm_num⟩)

/-- C7: decode_metric maps a wire namespace equal to the empty string to an
absent canonical namespace and an empty wire tags mapping to absent canonical
tags; encode_metric maps an absent canonical namespace to the empty string and
absent canonical tags to the empty mapping, for every metric. -/
theorem namespace_tags_normalization (w : proto.Metric) (m mm : event.Metric)
    (h : decode_metric w = some m) :
    (w.namespace_ = "" → m.series.name.namespace_ = none) ∧
    (w.tags = [] → m.series.tags = none) ∧
    (mm.series.name.namespace_ = none → (encode_metric mm).namespace_ = "") ∧
    (mm.series.tags = none → (encode_metric mm).tags = []) := by
  obtain ⟨name, ns, ts, tags, kind, value⟩ := w
  cases value with
  | none => simp [decode_metric] at h
  | some v =>
    simp only [decode_metric, Option.some.injEq] at h
    subst h
    refine ⟨fun he => ?_, fun he => ?_, fun he => ?_, fun he => ?_⟩
    · simp only at he
      simp [event.Metric.new, event.Metric.with_namespace, event.Metric.with_tags,
        event.Metric.with_timestamp, he]
    · simp only at he
      simp [event.Metric.new, event.Metric.with_namespace, event.Metric.with_tags,
        event.Metric.with_timestamp, he]
    · simp [encode_metric, he]
    · simp [encode_metric, he]

theorem namespace_tags_normalization_witness :
    (("" : String) = "" →
      (⟨⟨⟨"n", none⟩, none⟩, ⟨none, .incremental, .counter ⟨10⟩⟩⟩ :
        event.Metric).series.name.namespace_ = none) ∧
    (([] : List (String × String)) = [] →
      (⟨⟨⟨"n", none⟩, none⟩, ⟨none, .incremental, .counter ⟨10⟩⟩⟩ :
        event.Metric).series.tags = none) ∧
    ((⟨⟨⟨"n", none⟩, none⟩, ⟨none, .incremental, .counter ⟨10⟩⟩⟩ :
        event.Metric).series.name.namespace_ = none →
      (encode_metric ⟨⟨⟨"n", none⟩, none⟩,
        ⟨none, .incremental, .counter ⟨10⟩⟩⟩).namespace_ = "") ∧
    ((⟨⟨⟨"n", none⟩, none⟩, ⟨none, .incremental, .counter ⟨10⟩⟩⟩ :
        event.Metric).series.tags = none →
      (encode_metric ⟨⟨⟨"n", none⟩, none⟩,
        ⟨none, .incremental, .counter ⟨10⟩⟩⟩).tags = []) :=
  namespace_tags_normalization
    ⟨"n", "", none, [], .incremental, some (.counter ⟨⟨10⟩⟩)⟩
    ⟨⟨⟨"n", none⟩, none⟩, ⟨none, .incremental, .counter ⟨10⟩⟩⟩
    ⟨⟨⟨"n", none⟩, none⟩, ⟨none, .incremental, .counter ⟨10⟩⟩⟩ rfl

/-- C8: the normalization encode_metric after decode_metric is idempotent: for
every wire Metric w with its value field present (legacy or current
sub-variants) and decoding to m, re-encoding, decoding and encoding again
yields exactly encode_metric m, i.e.
encode_metric (decode_metric (encode_metric (decode_metric w))) equals
encode_metric (decode_metric w). -/
theorem reencode_idempotent (w : proto.Metric) (m : event.Metric)
    (h : decode_metric w = some m) :
    (decode_metric (encode_metric m)).map encode_metric =
      some (encode_metric m) := by
  rw [decode_metric_normalized w m h]
  rfl

theorem reencode_idempotent_witness :
    (decode_metric (encode_metric ⟨⟨⟨"d", some "ns"⟩, some [("k", "v")]⟩,
        ⟨some ⟨5, 123456789⟩, .absolute,
          .distribution .summary [⟨⟨1⟩, 5⟩]⟩⟩)).map encode_metric =
      some (encode_metric ⟨⟨⟨"d", some "ns"⟩, some [("k", "v")]⟩,
        ⟨some ⟨5, 123456789⟩, .absolute,
          .distribution .summary [⟨⟨1⟩, 5⟩]⟩⟩) :=
  reencode_idempotent
    ⟨"d", "ns", some ⟨5, 123456789⟩, [("k", "v")], .absolute,
      some (.distribution1 ⟨[⟨1⟩, ⟨2⟩, ⟨3⟩], [5], .summary⟩)⟩
    ⟨⟨⟨"d", some "ns"⟩, some [("k", "v")]⟩,
      ⟨some ⟨5, 123456789⟩, .absolute, .distribution .summary [⟨⟨1⟩, 5⟩]⟩⟩ (by decide)
